import Mathlib

/-!
# AirDrop — verification of the QA hand-off pipeline

Shallow embedding of the decision logic of the `airdrop` repository
(`post-qa.js`, `sharepoint.js`, `api/dispatch.js`), together with proofs of
the specification claims about the gate evaluator, the artifact matcher, the
link extractor, the comment composer and the dispatch entry point.

Strings are modelled through their character lists (`String.data`); JavaScript
string primitives (`toLowerCase`, `trim`, `replace` with the concrete regexes
of the source, `startsWith`, `endsWith`) are translated as executable Lean
functions over ASCII, which is the alphabet all configured patterns use.
-/

namespace Airdrop

/-! ## Character predicates (JS character classes, ASCII range) -/

/-- JS `\s` (ASCII whitespace as used by the source's status/name strings). -/
def isSpaceJS (c : Char) : Bool :=
  c == ' ' || c == '\t' || c == '\n' || c == '\r' || c == '\x0b' || c == '\x0c'

/-- JS `\w` = `[A-Za-z0-9_]`. -/
def isWordChar (c : Char) : Bool :=
  c.isAlphanum || c == '_'

/-- JS `String.prototype.toLowerCase` (basic latin letters, as `Char.toLower`). -/
def toLowerJS (c : Char) : Char := c.toLower

/-! ## JS string helpers on character lists -/

/-- Streaming implementation of `.replace(/X+/g, ' ')` where `X` is the class
decided by `p`: every maximal run of `p`-characters becomes one space.
The flag records whether the scanner stands inside a run. -/
def collapseAux (p : Char → Bool) : Bool → List Char → List Char
  | _, [] => []
  | inRun, c :: rest =>
    if p c then
      if inRun then collapseAux p true rest
      else ' ' :: collapseAux p true rest
    else c :: collapseAux p false rest

/-- `.replace(/X+/g, ' ')` with `X` decided by `p`. -/
def collapseRuns (p : Char → Bool) (l : List Char) : List Char :=
  collapseAux p false l

/-- JS `String.prototype.trim` (strip leading and trailing whitespace). -/
def trimChars (l : List Char) : List Char :=
  ((l.dropWhile isSpaceJS).reverse.dropWhile isSpaceJS).reverse

/-- `normalize` of `post-qa.js` (both revisions, and the second `sharepoint.js`
revision), on character lists:
`String(s).toLowerCase().replace(/\s+/g, ' ').replace(/[^\w\s]/g, '').trim()`. -/
def normalizeChars (l : List Char) : List Char :=
  trimChars ((collapseRuns isSpaceJS (l.map toLowerJS)).filter
    (fun c => isWordChar c || isSpaceJS c))

/-- `normalize` on strings. -/
def normalize (s : String) : String := ⟨normalizeChars s.data⟩

/-! ## Idempotence analysis of `normalize` (claim C8) -/

theorem toLowerJS_idem (c : Char) : toLowerJS (toLowerJS c) = toLowerJS c := by
  have hdef : ∀ d : Char, d.toLower =
      if d.toNat ≥ 65 ∧ d.toNat ≤ 90 then Char.ofNat (d.toNat + 32) else d := by
    intro d
    rfl
  unfold toLowerJS
  by_cases h : c.toNat ≥ 65 ∧ c.toNat ≤ 90
  · rw [hdef c, if_pos h]
    have hv : (c.toNat + 32).isValidChar := by
      left
      omega
    have ht : (Char.ofNat (c.toNat + 32)).toNat = c.toNat + 32 := by
      simp only [Char.ofNat, hv, dite_true]
      rfl
    rw [hdef (Char.ofNat (c.toNat + 32))]
    rw [if_neg (by rw [ht]; omega)]
  · rw [hdef c, if_neg h, hdef c, if_neg h]

theorem space_not_word {c : Char} (h : isSpaceJS c = true) : isWordChar c = false := by
  simp only [isSpaceJS, Bool.or_eq_true, beq_iff_eq] at h
  rcases h with ((((h | h) | h) | h) | h) | h <;> subst h <;> decide

theorem mem_collapseAux {p : Char → Bool} {c : Char} :
    ∀ {b : Bool} {l : List Char}, c ∈ collapseAux p b l →
      c = ' ' ∨ (c ∈ l ∧ p c = false) := by
  intro b l
  induction l generalizing b with
  | nil => intro h; simp [collapseAux] at h
  | cons d rest ih =>
    intro h
    by_cases hd : p d
    · rw [collapseAux, if_pos hd] at h
      cases b with
      | true =>
        rw [if_pos rfl] at h
        rcases ih h with h' | ⟨hm, hp⟩
        · exact Or.inl h'
        · exact Or.inr ⟨List.mem_cons_of_mem d hm, hp⟩
      | false =>
        rw [if_neg (by simp)] at h
        rcases List.mem_cons.mp h with h' | h'
        · exact Or.inl h'
        · rcases ih h' with h'' | ⟨hm, hp⟩
          · exact Or.inl h''
          · exact Or.inr ⟨List.mem_cons_of_mem d hm, hp⟩
    · rw [collapseAux, if_neg hd] at h
      rcases List.mem_cons.mp h with h' | h'
      · subst h'
        exact Or.inr ⟨List.mem_cons_self _ _, by rwa [Bool.not_eq_true] at hd⟩
      · rcases ih h' with h'' | ⟨hm, hp⟩
        · exact Or.inl h''
        · exact Or.inr ⟨List.mem_cons_of_mem d hm, hp⟩

theorem head?_collapseAux_true {p : Char → Bool} :
    ∀ {l : List Char} {c : Char}, (collapseAux p true l).head? = some c →
      p c = false := by
  intro l
  induction l with
  | nil => intro c h; simp [collapseAux] at h
  | cons d rest ih =>
    intro c h
    by_cases hd : p d
    · rw [collapseAux, if_pos hd, if_pos rfl] at h
      exact ih h
    · rw [collapseAux, if_neg hd] at h
      simp only [List.head?_cons, Option.some.injEq] at h
      subst h
      rwa [Bool.not_eq_true] at hd

/-- Collapsing yields no two adjacent `p`-characters. -/
theorem chain'_collapseAux {p : Char → Bool} :
    ∀ (l : List Char) (b : Bool),
    (collapseAux p b l).Chain' (fun a c => ¬(p a = true ∧ p c = true)) := by
  intro l
  induction l with
  | nil => intro b; simp [collapseAux]
  | cons d rest ih =>
    intro b
    by_cases hd : p d
    · cases b with
      | true =>
        rw [collapseAux, if_pos hd, if_pos rfl]
        exact ih true
      | false =>
        rw [collapseAux, if_pos hd, if_neg (by simp)]
        apply List.chain'_cons'.mpr
        refine ⟨?_, ih true⟩
        intro e he hcon
        have hpe := head?_collapseAux_true (p := p) he
        rw [hpe] at hcon
        exact absurd hcon.2 (by simp)
    · rw [collapseAux, if_neg hd]
      apply List.chain'_cons'.mpr
      refine ⟨?_, ih false⟩
      intro e _ hcon
      exact hd hcon.1

/-- On a list whose `p`-characters are all `' '` with none adjacent,
collapsing is the identity. -/
theorem collapseAux_eq_self {p : Char → Bool} :
    ∀ {l : List Char}, (∀ c ∈ l, p c = true → c = ' ') →
    l.Chain' (fun a c => ¬(p a = true ∧ p c = true)) →
    collapseAux p false l = l := by
  intro l
  induction l with
  | nil => intro _ _; rfl
  | cons d rest ih =>
    intro honly hchain
    by_cases hd : p d
    · have hd' : d = ' ' := honly d (List.mem_cons_self _ _) hd
      rw [collapseAux, if_pos hd, if_neg (by simp), hd']
      have hstep : collapseAux p true rest = collapseAux p false rest := by
        cases rest with
        | nil => rfl
        | cons e tl =>
          have hrel := (List.chain'_cons.mp hchain).1
          have hpe : ¬ p e = true := fun hc => hrel ⟨hd, hc⟩
          rw [collapseAux, if_neg hpe, collapseAux, if_neg hpe]
      rw [hstep]
      congr 1
      exact ih (fun c hc hpc => honly c (List.mem_cons_of_mem _ hc) hpc) hchain.tail
    · rw [collapseAux, if_neg hd]
      congr 1
      exact ih (fun c hc hpc => honly c (List.mem_cons_of_mem _ hc) hpc) hchain.tail

theorem trimChars_sublist (l : List Char) : (trimChars l).Sublist l := by
  unfold trimChars
  have h1 : (l.dropWhile isSpaceJS).Sublist l := List.dropWhile_sublist _
  have h2 : ((l.dropWhile isSpaceJS).reverse.dropWhile isSpaceJS).Sublist
      (l.dropWhile isSpaceJS).reverse := List.dropWhile_sublist _
  have h3 := List.reverse_sublist.mpr h2
  rw [List.reverse_reverse] at h3
  exact h3.trans h1

theorem mem_trimChars {l : List Char} {c : Char} (h : c ∈ trimChars l) : c ∈ l :=
  (trimChars_sublist l).mem h

/-- Trimming keeps a chain property (it takes an infix of the list). -/
theorem trimChars_chain' {R : Char → Char → Prop}
    {l : List Char} (h : l.Chain' R) : (trimChars l).Chain' R := by
  unfold trimChars
  have h1 : (l.dropWhile isSpaceJS).Chain' R := by
    have hsplit := List.takeWhile_append_dropWhile (p := isSpaceJS) (l := l)
    rw [← hsplit] at h
    exact (List.chain'_append.mp h).2.1
  have h2 : ((l.dropWhile isSpaceJS).reverse).Chain' (flip R) := by
    rw [List.chain'_reverse]
    exact h1
  have h3 : ((l.dropWhile isSpaceJS).reverse.dropWhile isSpaceJS).Chain' (flip R) := by
    have hsplit := List.takeWhile_append_dropWhile (p := isSpaceJS)
      (l := (l.dropWhile isSpaceJS).reverse)
    rw [← hsplit] at h2
    exact (List.chain'_append.mp h2).2.1
  rw [List.chain'_reverse]
  exact h3

theorem getLast?_dropWhile {p : Char → Bool} :
    ∀ {m : List Char}, m.dropWhile p ≠ [] →
      (m.dropWhile p).getLast? = m.getLast? := by
  intro m
  induction m with
  | nil => intro h; simp at h
  | cons a tl ih =>
    intro h
    by_cases hp : p a
    · rw [List.dropWhile_cons_of_pos hp] at h ⊢
      have htl : tl ≠ [] := by
        rintro rfl
        simp at h
      rw [ih h]
      cases tl with
      | nil => exact absurd rfl htl
      | cons b tl2 => rw [List.getLast?_cons_cons]
    · rw [List.dropWhile_cons_of_neg hp]

theorem trimChars_head? {l : List Char} {c : Char}
    (h : (trimChars l).head? = some c) : isSpaceJS c = false := by
  unfold trimChars at h
  rw [List.head?_reverse] at h
  have hne : (l.dropWhile isSpaceJS).reverse.dropWhile isSpaceJS ≠ [] := by
    intro hnil
    rw [hnil] at h
    simp at h
  rw [getLast?_dropWhile hne, List.getLast?_reverse] at h
  have hm := List.head?_dropWhile_not isSpaceJS l
  rw [h] at hm
  exact hm

theorem trimChars_getLast? {l : List Char} {c : Char}
    (h : (trimChars l).getLast? = some c) : isSpaceJS c = false := by
  unfold trimChars at h
  rw [List.getLast?_reverse] at h
  have hm := List.head?_dropWhile_not isSpaceJS (l.dropWhile isSpaceJS).reverse
  rw [h] at hm
  exact hm

theorem trimChars_eq_self {l : List Char}
    (hh : ∀ c, l.head? = some c → isSpaceJS c = false)
    (hl : ∀ c, l.getLast? = some c → isSpaceJS c = false) : trimChars l = l := by
  unfold trimChars
  have h1 : l.dropWhile isSpaceJS = l := by
    cases l with
    | nil => rfl
    | cons a tl =>
      have ha := hh a (by simp)
      rw [List.dropWhile_cons_of_neg (by simp [ha])]
  rw [h1]
  have h2 : l.reverse.dropWhile isSpaceJS = l.reverse := by
    cases hrev : l.reverse with
    | nil => rfl
    | cons a tl =>
      have ha : l.getLast? = some a := by
        rw [← List.head?_reverse, hrev]
        simp
      have ha' := hl a ha
      rw [List.dropWhile_cons_of_neg (by simp [ha'])]
  rw [h2, List.reverse_reverse]

/-- A character is canonical when a pass of `normalize` can no longer change
it: a case-stable word character or a plain space. -/
def canonChar (c : Char) : Bool :=
  (isWordChar c || c == ' ') && (toLowerJS c == c)

theorem canonChar_space : canonChar ' ' = true := by decide

/-- Every character surviving one `normalize` pass is canonical. -/
theorem normalizeChars_canon {l : List Char} {c : Char}
    (h : c ∈ normalizeChars l) : canonChar c = true := by
  unfold normalizeChars at h
  have hf := mem_trimChars h
  rw [List.mem_filter] at hf
  obtain ⟨hmem, hkeep⟩ := hf
  rcases mem_collapseAux (p := isSpaceJS) hmem with hsp | ⟨hmem', hnsp⟩
  · subst hsp
    exact canonChar_space
  · rw [List.mem_map] at hmem'
    obtain ⟨a, _, ha⟩ := hmem'
    have hlow : toLowerJS c = c := by
      rw [← ha]
      exact toLowerJS_idem a
    have hword : isWordChar c = true := by
      rw [Bool.or_eq_true] at hkeep
      rcases hkeep with hw | hs
      · exact hw
      · rw [hnsp] at hs
        exact absurd hs (by simp)
    unfold canonChar
    rw [hword, hlow]
    simp

/-- On a list of canonical characters, `normalize` reduces to collapsing
whitespace runs followed by trimming. -/
theorem normalizeChars_of_canon {m : List Char}
    (hc : ∀ c ∈ m, canonChar c = true) :
    normalizeChars m = trimChars (collapseRuns isSpaceJS m) := by
  unfold normalizeChars
  have hmap : m.map toLowerJS = m := by
    have hcongr : m.map toLowerJS = m.map id := by
      apply List.map_congr_left
      intro c hmem
      have hcc := hc c hmem
      simp only [canonChar, Bool.and_eq_true, beq_iff_eq] at hcc
      exact hcc.2
    rw [hcongr, List.map_id]
  rw [hmap]
  have hfilter : (collapseRuns isSpaceJS m).filter
      (fun c => isWordChar c || isSpaceJS c) = collapseRuns isSpaceJS m := by
    rw [List.filter_eq_self]
    intro c hmem
    rcases mem_collapseAux (p := isSpaceJS) hmem with hsp | ⟨hmem', _⟩
    · subst hsp
      decide
    · have hcc := hc c hmem'
      simp only [canonChar, Bool.and_eq_true, Bool.or_eq_true, beq_iff_eq] at hcc
      rcases hcc.1 with hw | hs
      · simp [hw]
      · subst hs
        decide
  rw [hfilter]

/-- After two passes, `normalize` reaches a fixed point over character lists. -/
theorem normalizeChars_third_pass (l : List Char) :
    normalizeChars (normalizeChars (normalizeChars l)) =
      normalizeChars (normalizeChars l) := by
  have hcanon1 : ∀ c ∈ normalizeChars l, canonChar c = true :=
    fun c hc => normalizeChars_canon hc
  have hform : normalizeChars (normalizeChars l) =
      trimChars (collapseRuns isSpaceJS (normalizeChars l)) :=
    normalizeChars_of_canon hcanon1
  have hcanon2 : ∀ c ∈ normalizeChars (normalizeChars l), canonChar c = true :=
    fun c hc => normalizeChars_canon hc
  have hchain : (normalizeChars (normalizeChars l)).Chain'
      (fun a c => ¬(isSpaceJS a = true ∧ isSpaceJS c = true)) := by
    rw [hform]
    exact trimChars_chain' (chain'_collapseAux _ false)
  have honly : ∀ c ∈ normalizeChars (normalizeChars l), isSpaceJS c = true → c = ' ' := by
    intro c hmem hsp
    have hcc := hcanon2 c hmem
    simp only [canonChar, Bool.and_eq_true, Bool.or_eq_true, beq_iff_eq] at hcc
    rcases hcc.1 with hw | hs
    · rw [space_not_word hsp] at hw
      exact absurd hw (by simp)
    · exact hs
  rw [normalizeChars_of_canon hcanon2]
  unfold collapseRuns
  rw [collapseAux_eq_self honly hchain]
  apply trimChars_eq_self
  · intro c hc
    rw [hform] at hc
    exact trimChars_head? hc
  · intro c hc
    rw [hform] at hc
    exact trimChars_getLast? hc

/-- C8 — counterexample. The claim `normalize (normalize x) = normalize x`
fails at `x = "a . b"`: whitespace is collapsed before punctuation is
stripped, so stripping `'.'` leaves a double space that only the next pass
collapses. -/
theorem C8_counterexample :
    normalize (normalize "a . b") ≠ normalize "a . b" ∧
    normalize "a . b" = "a  b" ∧ normalize (normalize "a . b") = "a b" := by
  refine ⟨?_, ?_, ?_⟩ <;> decide

/-- C8 (amended) — the name/status normalization is not idempotent, but it
stabilizes after two applications: `normalize (normalize (normalize x)) =
normalize (normalize x)` for every string `x`; equivalently, `normalize` is
idempotent on the image of `normalize ∘ normalize`. -/
theorem C8_normalize_stabilizes (s : String) :
    normalize (normalize (normalize s)) = normalize (normalize s) :=
  congrArg String.mk (normalizeChars_third_pass s.data)

/-! ## Custom-field values and the checkbox predicate (claim C4) -/

/-- Dynamic shape of a ClickUp custom-field `value`. -/
inductive JSValue
  | bool (b : Bool)
  | num (n : Int)
  | str (s : String)
  | null
deriving DecidableEq, BEq

/-- `String.prototype.toLowerCase` on whole strings. -/
def lowerStr (s : String) : String := ⟨s.data.map toLowerJS⟩

/-- `String.prototype.trim` on whole strings. -/
def jsTrim (s : String) : String := ⟨trimChars s.data⟩

/-- `isCheckboxChecked` of `post-qa.js` (part_001 lines 187–197 and the later
revision of part_002, lines 549–557): `v === true || v === 1` is checked; a
string is checked when its trimmed lowercase form is one of
`"true" | "1" | "yes" | "checked" | "on"`; anything else — including an
absent field (`none`) — is unchecked. -/
def isCheckboxChecked (v? : Option JSValue) : Bool :=
  match v? with
  | some (JSValue.bool b) => b
  | some (JSValue.num n) => n == 1
  | some (JSValue.str s) =>
    let t := lowerStr (jsTrim s)
    t == "true" || t == "1" || t == "yes" || t == "checked" || t == "on"
  | some JSValue.null => false
  | none => false

/-- The earlier `isCheckboxChecked` revision (part_002 lines 150–152):
`cf && (cf.value === true || cf.value === 1 || cf.value === '1')`. -/
def isCheckboxChecked_v0 (v? : Option JSValue) : Bool :=
  match v? with
  | none => false
  | some v =>
    v == JSValue.bool true || v == JSValue.num 1 || v == JSValue.str "1"

/-- C4 — counterexample. The claim is false of the earlier revision of
`isCheckboxChecked` (part_002 lines 150–156), which it cites: the string
`"yes"` has its trimmed case-folded form in the configured set, yet that
revision returns `false` for it (it accepts only `true`, `1` and `"1"`). -/
theorem C4_counterexample :
    lowerStr (jsTrim "yes") ∈ (["true", "1", "yes", "checked", "on"] : List String) ∧
    isCheckboxChecked_v0 (some (JSValue.str "yes")) = false := by
  constructor <;> decide

/-- C4 (amended) — the characterization holds of `isCheckboxChecked` as
defined in part_001 and in the later revision of part_002 (the one the gate
of claim C1 uses): it returns `true` exactly for boolean `true`, the number
`1`, and strings whose trimmed case-folded form is one of
`"true","1","yes","checked","on"`; every other value, the absent field
included, yields `false`. -/
theorem C4_checkbox_characterization (v? : Option JSValue) :
    isCheckboxChecked v? = true ↔
      v? = some (JSValue.bool true) ∨ v? = some (JSValue.num 1) ∨
      ∃ s, v? = some (JSValue.str s) ∧
        lowerStr (jsTrim s) ∈ (["true", "1", "yes", "checked", "on"] : List String) := by
  cases v? with
  | none => simp [isCheckboxChecked]
  | some v =>
    cases v with
    | bool b => cases b <;> simp [isCheckboxChecked]
    | num n =>
      simp only [isCheckboxChecked, beq_iff_eq, Option.some.injEq]
      constructor
      · intro h
        exact Or.inr (Or.inl (by rw [h]))
      · rintro (h | h | ⟨s, h, _⟩) <;> simp_all
    | str s =>
      simp only [isCheckboxChecked, Bool.or_eq_true, beq_iff_eq, Option.some.injEq]
      constructor
      · intro h
        refine Or.inr (Or.inr ⟨s, rfl, ?_⟩)
        simp only [List.mem_cons, List.not_mem_nil, or_false]
        tauto
      · rintro (h | h | ⟨s', hs', hmem⟩)
        · exact absurd h (by simp)
        · exact absurd h (by simp)
        · obtain rfl : s = s' := by injection hs'
          simp only [List.mem_cons, List.not_mem_nil, or_false] at hmem
          tauto
    | null => simp [isCheckboxChecked]

/-! ## Gate evaluator (claims C1, C3) -/

/-- The per-fetch view of the work item that the gate inspects: the raw status
label (`task.status.status || task.status.name || ''`) and the raw value of
the "Passed QA" custom field (`none` when `findCustomField` finds nothing). -/
structure Snapshot where
  status : String
  passedValue : Option JSValue

/-- Snapshot-level gate decision of `run` (part_001 lines 296–303 / 337,
part_002 lines 664–676 / 704): `statusOk && passedQA` where
`statusOk = (normalize(statusNow) === normalize(requiredStatus))` and
`passedQA = isCheckboxChecked(cfPassed)`. -/
def gateDecision (requiredStatus : String) (t : Snapshot) : Bool :=
  (normalize t.status == normalize requiredStatus) && isCheckboxChecked t.passedValue

/-- C1 — for every snapshot, the gate passes iff the normalized observed
status equals the normalized required status and the checkbox value is
checked; in particular observed `"Needs Approval (Dev)"` against required
`"needs approval (dev)"` with a checked checkbox passes. -/
theorem C1_gate_pass_iff :
    (∀ (required : String) (t : Snapshot),
      gateDecision required t = true ↔
        (normalize t.status = normalize required ∧
         isCheckboxChecked t.passedValue = true)) ∧
    gateDecision "needs approval (dev)"
      ⟨"Needs Approval (Dev)", some (JSValue.bool true)⟩ = true := by
  constructor
  · intro required t
    simp [gateDecision, Bool.and_eq_true, beq_iff_eq]
  · decide

/-- Result of the gate phase of one run: the final decision, how many times
the work item was re-fetched beyond the initial read, and the total time
slept. -/
structure GateRunResult where
  passed : Bool
  refetchCount : Nat
  delayMs : Nat
deriving DecidableEq

/-- The gate phase of `run` (part_002 lines 664–717): compute the decision
from the first fetch; if the status check fails while the checkbox is checked
and the observed status normalizes to `"QA"` or `"QA (Dev)"`, sleep 1500 ms,
re-fetch the work item once and recompute only the status check from the
fresh data. `fetch n` is the work item returned by the `n`-th `cuGet` of the
run. -/
def gateRun (requiredStatus : String) (fetch : Nat → Snapshot) : GateRunResult :=
  let t := fetch 0
  let statusOk := normalize t.status == normalize requiredStatus
  let passedQA := isCheckboxChecked t.passedValue
  if !statusOk && passedQA &&
      (normalize t.status == normalize "QA" ||
       normalize t.status == normalize "QA (Dev)") then
    let t2 := fetch 1
    let statusOk2 := normalize t2.status == normalize requiredStatus
    { passed := statusOk2 && passedQA, refetchCount := 1, delayMs := 1500 }
  else
    { passed := statusOk && passedQA, refetchCount := 0, delayMs := 0 }

/-- C3 — the re-fetch happens at most once per run; it fires exactly when the
initial status check fails with the checkbox checked and the observed status
normalizing to a pending label; when it fires the run sleeps the fixed
1500 ms and the decision is recomputed once from the fresh status (checkbox
kept from the first read); and the outcome never depends on any fetch beyond
the first two. -/
theorem C3_recheck_at_most_once (required : String) (fetch : Nat → Snapshot) :
    (gateRun required fetch).refetchCount ≤ 1 ∧
    ((gateRun required fetch).refetchCount = 1 ↔
      (¬ normalize (fetch 0).status = normalize required ∧
       isCheckboxChecked (fetch 0).passedValue = true ∧
       (normalize (fetch 0).status = normalize "QA" ∨
        normalize (fetch 0).status = normalize "QA (Dev)"))) ∧
    ((gateRun required fetch).refetchCount = 1 →
      (gateRun required fetch).delayMs = 1500 ∧
      (gateRun required fetch).passed =
        ((normalize (fetch 1).status == normalize required) &&
          isCheckboxChecked (fetch 0).passedValue)) ∧
    ((gateRun required fetch).refetchCount = 0 →
      (gateRun required fetch).delayMs = 0 ∧
      (gateRun required fetch).passed = gateDecision required (fetch 0)) ∧
    (∀ fetch2 : Nat → Snapshot, fetch2 0 = fetch 0 → fetch2 1 = fetch 1 →
      gateRun required fetch2 = gateRun required fetch) := by
  by_cases hcond : (!(normalize (fetch 0).status == normalize required) &&
      isCheckboxChecked (fetch 0).passedValue &&
      (normalize (fetch 0).status == normalize "QA" ||
       normalize (fetch 0).status == normalize "QA (Dev)")) = true
  · have hrun : gateRun required fetch =
        { passed := (normalize (fetch 1).status == normalize required) &&
            isCheckboxChecked (fetch 0).passedValue,
          refetchCount := 1, delayMs := 1500 } := by
      unfold gateRun
      rw [if_pos hcond]
    refine ⟨by rw [hrun], ?_, ?_, ?_, ?_⟩
    · rw [hrun]
      simp only [true_iff]
      simp only [Bool.and_eq_true, Bool.not_eq_true', Bool.or_eq_true,
        beq_iff_eq, beq_eq_false_iff_ne, ne_eq] at hcond
      exact ⟨hcond.1.1, hcond.1.2, hcond.2⟩
    · intro _
      rw [hrun]
      exact ⟨rfl, rfl⟩
    · intro h0
      rw [hrun] at h0
      simp at h0
    · intro fetch2 h0 h1
      unfold gateRun
      rw [h0, h1]
  · have hrun : gateRun required fetch =
        { passed := (normalize (fetch 0).status == normalize required) &&
            isCheckboxChecked (fetch 0).passedValue,
          refetchCount := 0, delayMs := 0 } := by
      unfold gateRun
      rw [if_neg hcond]
    refine ⟨by rw [hrun]; exact Nat.zero_le 1, ?_, ?_, ?_, ?_⟩
    · rw [hrun]
      simp only [Bool.and_eq_true, Bool.not_eq_true', Bool.or_eq_true,
        beq_iff_eq, beq_eq_false_iff_ne, ne_eq] at hcond
      constructor
      · intro h
        simp at h
      · intro ⟨h1, h2, h3⟩
        exact absurd ⟨⟨h1, h2⟩, h3⟩ hcond
    · intro h1
      rw [hrun] at h1
      simp at h1
    · intro _
      rw [hrun]
      exact ⟨rfl, rfl⟩
    · intro fetch2 h0 h1
      unfold gateRun
      rw [h0, h1]

/-- Concrete run used to witness the re-check branch: first fetch still in
status `"QA"` with the checkbox checked, second fetch in the required
status. -/
def wfetchC3 : Nat → Snapshot := fun n =>
  if n = 0 then ⟨"QA", some (JSValue.bool true)⟩
  else ⟨"Needs Approval (Dev)", some (JSValue.bool true)⟩

/-- C3 — witness: on `wfetchC3` the re-check fires once, sleeps 1500 ms and
the recomputed decision passes. -/
theorem C3_witness :
    (gateRun "needs approval (dev)" wfetchC3).delayMs = 1500 ∧
    (gateRun "needs approval (dev)" wfetchC3).passed = true := by
  have h := (C3_recheck_at_most_once "needs approval (dev)" wfetchC3).2.2.1
    (by decide)
  refine ⟨h.1, ?_⟩
  rw [h.2]
  decide

/-! ## Artifact matcher (claims C2, C10) -/

/-- `startsWith` on strings via character lists. -/
def jsStartsWith (s pre : String) : Bool := pre.data.isPrefixOf s.data

/-- `endsWith` (used to model the anchored extension regexes). -/
def jsEndsWith (s suffix : String) : Bool := suffix.data.isSuffixOf s.data

/-- `norm` of the first `sharepoint.js` revision (lines 103–109): lowercase,
fold en/em dashes to `'-'`, collapse runs of underscores/whitespace to one
space, strip characters outside `[\w.\- ]`, trim. -/
def normSpChars (l : List Char) : List Char :=
  trimChars ((collapseRuns (fun c => c == '_' || isSpaceJS c)
    ((l.map toLowerJS).map
      (fun c => if c == '–' || c == '—' then '-' else c))).filter
    (fun c => isWordChar c || c == '.' || c == '-' || c == ' '))

/-- `norm` on strings. -/
def normSp (s : String) : String := ⟨normSpChars s.data⟩

/-- One item of a Graph folder listing as the selection helpers see it:
its name, its `folder` facet (`isFolder`) and its `file` facet (`hasFile`). -/
structure Entry where
  name : String
  isFolder : Bool
  hasFile : Bool
deriving DecidableEq

/-- `/\.xlsx?$/i.test(name)`. -/
def isExcelName (n : String) : Bool :=
  jsEndsWith (lowerStr n) ".xlsx" || jsEndsWith (lowerStr n) ".xls"

/-- `.replace(/\.xlsx?$/, '')` applied to an already lowercased name. -/
def stripNormExt (s : String) : String :=
  if jsEndsWith s ".xlsx" then ⟨s.data.take (s.data.length - 5)⟩
  else if jsEndsWith s ".xls" then ⟨s.data.take (s.data.length - 4)⟩
  else s

/-- Substring containment on character lists. -/
def containsSub (needle : List Char) : List Char → Bool
  | [] => needle.isEmpty
  | c :: rest => needle.isPrefixOf (c :: rest) || containsSub needle rest

/-- `/preview/i.test(name)`. -/
def containsPreviewCI (n : String) : Bool :=
  containsSub "preview".data (lowerStr n).data

/-- `findExcelForTask` of the first `sharepoint.js` revision (lines 100–131):
four tiers over the listing, each restricted to non-folder entries with a
spreadsheet extension — exact normalized match without extension, prefix
`"<title> "` match, name containing `preview`, then any spreadsheet. -/
def findExcelForTask (items : List Entry) (taskTitle : String) : Option Entry :=
  let base := normSp taskTitle
  match items.find? (fun f => (!f.isFolder && isExcelName f.name) &&
      (stripNormExt (normSp f.name) == base)) with
  | some e => some e
  | none =>
    match items.find? (fun f => (!f.isFolder && isExcelName f.name) &&
        jsStartsWith (normSp f.name) (base ++ " ")) with
    | some e => some e
    | none =>
      match items.find? (fun f => (!f.isFolder && isExcelName f.name) &&
          containsPreviewCI f.name) with
      | some e => some e
      | none => items.find? (fun f => !f.isFolder && isExcelName f.name)

/-- The claim's spreadsheet type filter: file entries (not folders) whose
name carries a spreadsheet extension. -/
def excelCandidates (items : List Entry) : List Entry :=
  items.filter (fun f => !f.isFolder && isExcelName f.name)

/-- Modelled from the claim's words (C2): on the type-filtered candidate
list, take in priority order the first exact normalized match (extension
removed), the first prefix match on `normalized title + " "`, the first name
containing `"preview"` case-insensitively, then the first candidate. -/
def findExcelSpec (items : List Entry) (taskTitle : String) : Option Entry :=
  let base := normSp taskTitle
  let cands := excelCandidates items
  match cands.find? (fun f => stripNormExt (normSp f.name) == base) with
  | some e => some e
  | none =>
    match cands.find? (fun f => jsStartsWith (normSp f.name) (base ++ " ")) with
    | some e => some e
    | none =>
      match cands.find? (fun f => containsPreviewCI f.name) with
      | some e => some e
      | none => cands.head?

theorem find?_filter_eq {α} (l : List α) (p q : α → Bool) :
    (l.filter p).find? q = l.find? (fun a => p a && q a) := by
  induction l with
  | nil => rfl
  | cons a tl ih =>
    by_cases hp : p a
    · rw [List.filter_cons_of_pos hp]
      by_cases hq : q a
      · rw [List.find?_cons_of_pos _ hq, List.find?_cons_of_pos _ (by simp [hp, hq])]
      · rw [List.find?_cons_of_neg _ hq, List.find?_cons_of_neg _ (by simp [hq]), ih]
    · rw [List.filter_cons_of_neg hp, List.find?_cons_of_neg _ (by simp [hp]), ih]

theorem head?_filter_eq {α} (l : List α) (p : α → Bool) :
    (l.filter p).head? = l.find? p := by
  induction l with
  | nil => rfl
  | cons a tl ih =>
    by_cases hp : p a
    · rw [List.filter_cons_of_pos hp, List.find?_cons_of_pos _ hp]
      rfl
    · rw [List.filter_cons_of_neg hp, List.find?_cons_of_neg _ hp, ih]

/-- C2 — the selection is exactly the claimed tier chain over the
type-filtered candidates, it returns nothing exactly when no entry passes
the spreadsheet type filter, and on
`["Task A.xlsx", "Task A - v2.xlsx", "preview-notes.xlsx"]` with title
`"Task A"` the exact match `"Task A.xlsx"` wins. -/
theorem C2_excel_selection :
    (∀ (items : List Entry) (title : String),
      findExcelForTask items title = findExcelSpec items title) ∧
    (∀ (items : List Entry) (title : String),
      (findExcelForTask items title = none ↔ excelCandidates items = [])) ∧
    findExcelForTask
      [⟨"Task A.xlsx", false, true⟩, ⟨"Task A - v2.xlsx", false, true⟩,
       ⟨"preview-notes.xlsx", false, true⟩] "Task A" =
      some ⟨"Task A.xlsx", false, true⟩ := by
  have hmain : ∀ (items : List Entry) (title : String),
      findExcelForTask items title = findExcelSpec items title := by
    intro items title
    unfold findExcelForTask findExcelSpec excelCandidates
    simp only [find?_filter_eq, head?_filter_eq]
  refine ⟨hmain, ?_, by decide⟩
  intro items title
  rw [hmain]
  simp only [findExcelSpec]
  cases hc : excelCandidates items with
  | nil => simp
  | cons e tl =>
    constructor
    · intro h
      exfalso
      cases h1 : (e :: tl).find?
          (fun f => stripNormExt (normSp f.name) == normSp title) with
      | some e1 => rw [h1] at h; exact Option.noConfusion h
      | none =>
        rw [h1] at h
        cases h2 : (e :: tl).find?
            (fun f => jsStartsWith (normSp f.name) (normSp title ++ " ")) with
        | some e2 => rw [h2] at h; exact Option.noConfusion h
        | none =>
          rw [h2] at h
          cases h3 : (e :: tl).find? (fun f => containsPreviewCI f.name) with
          | some e3 => rw [h3] at h; exact Option.noConfusion h
          | none =>
            rw [h3] at h
            exact Option.noConfusion h
    · intro h
      exact absurd h (by simp)

/-- `.replace(/\.(xlsx?|XLSX?)$/, '')` of the part_000 revision (no `/i`
flag: only the four listed endings are stripped). -/
def stripExtAny (s : String) : String :=
  if jsEndsWith s ".xlsx" then ⟨s.data.take (s.data.length - 5)⟩
  else if jsEndsWith s ".xls" then ⟨s.data.take (s.data.length - 4)⟩
  else if jsEndsWith s ".XLSX" then ⟨s.data.take (s.data.length - 5)⟩
  else if jsEndsWith s ".XLS" then ⟨s.data.take (s.data.length - 4)⟩
  else s

/-- `findExcelForTask` of the second `sharepoint.js` revision (part_000
lines 144–171): filter on the `file` facet plus extension, then the same
tiers, stripping the extension before normalizing with `normalize`. -/
def findExcelForTask_v0 (items : List Entry) (taskTitle : String) : Option Entry :=
  let want := normalize taskTitle
  let excels := items.filter (fun it => it.hasFile && isExcelName it.name)
  if excels.isEmpty then none
  else
    match excels.find? (fun f => normalize (stripExtAny f.name) == want) with
    | some e => some e
    | none =>
      match excels.find?
          (fun f => jsStartsWith (normalize (stripExtAny f.name)) (want ++ " ")) with
      | some e => some e
      | none =>
        match excels.find? (fun f => containsPreviewCI f.name) with
        | some e => some e
        | none => excels.head?

theorem excel_tier_pred {items : List Entry} {e : Entry} {X : Entry → Bool}
    (h : items.find? (fun f => (!f.isFolder && isExcelName f.name) && X f) = some e) :
    e.isFolder = false ∧ isExcelName e.name = true := by
  have hp := List.find?_some h
  simp only [Bool.and_eq_true, Bool.not_eq_true'] at hp
  exact ⟨hp.1.1, hp.1.2⟩

/-- C10 — whatever `findExcelForTask` returns, at any tier, is a non-folder
entry whose name has a spreadsheet extension; in the part_000 revision the
selected entry carries the `file` facet and a spreadsheet extension, hence
under Graph's facet exclusivity it is likewise no folder. -/
theorem C10_selected_is_spreadsheet :
    (∀ (items : List Entry) (title : String) (e : Entry),
      findExcelForTask items title = some e →
      e.isFolder = false ∧ isExcelName e.name = true) ∧
    (∀ (items : List Entry) (title : String) (e : Entry),
      (∀ it ∈ items, it.hasFile = true → it.isFolder = false) →
      findExcelForTask_v0 items title = some e →
      e.isFolder = false ∧ e.hasFile = true ∧ isExcelName e.name = true) := by
  constructor
  · intro items title e h
    simp only [findExcelForTask] at h
    cases h1 : items.find? (fun f => (!f.isFolder && isExcelName f.name) &&
        (stripNormExt (normSp f.name) == normSp title)) with
    | some e1 =>
      rw [h1] at h
      injection h with he
      subst he
      exact excel_tier_pred h1
    | none =>
      rw [h1] at h
      cases h2 : items.find? (fun f => (!f.isFolder && isExcelName f.name) &&
          jsStartsWith (normSp f.name) (normSp title ++ " ")) with
      | some e2 =>
        rw [h2] at h
        injection h with he
        subst he
        exact excel_tier_pred h2
      | none =>
        rw [h2] at h
        cases h3 : items.find? (fun f => (!f.isFolder && isExcelName f.name) &&
            containsPreviewCI f.name) with
        | some e3 =>
          rw [h3] at h
          injection h with he
          subst he
          exact excel_tier_pred h3
        | none =>
          rw [h3] at h
          have hp := List.find?_some h
          simp only [Bool.and_eq_true, Bool.not_eq_true'] at hp
          exact hp
  · intro items title e hfacet h
    have hmem_excels : ∀ e2 : Entry,
        e2 ∈ items.filter (fun it => it.hasFile && isExcelName it.name) →
        e2.isFolder = false ∧ e2.hasFile = true ∧ isExcelName e2.name = true := by
      intro e2 hmem
      rw [List.mem_filter] at hmem
      obtain ⟨hmem, hpred⟩ := hmem
      simp only [Bool.and_eq_true] at hpred
      exact ⟨hfacet e2 hmem hpred.1, hpred.1, hpred.2⟩
    simp only [findExcelForTask_v0] at h
    by_cases hemp : (items.filter (fun it => it.hasFile && isExcelName it.name)).isEmpty
    · rw [if_pos hemp] at h
      exact Option.noConfusion h
    · rw [if_neg hemp] at h
      cases h1 : (items.filter (fun it => it.hasFile && isExcelName it.name)).find?
          (fun f => normalize (stripExtAny f.name) == normalize title) with
      | some e1 =>
        rw [h1] at h
        injection h with he
        subst he
        exact hmem_excels _ (List.mem_of_find?_eq_some h1)
      | none =>
        rw [h1] at h
        cases h2 : (items.filter (fun it => it.hasFile && isExcelName it.name)).find?
            (fun f => jsStartsWith (normalize (stripExtAny f.name))
              (normalize title ++ " ")) with
        | some e2 =>
          rw [h2] at h
          injection h with he
          subst he
          exact hmem_excels _ (List.mem_of_find?_eq_some h2)
        | none =>
          rw [h2] at h
          cases h3 : (items.filter (fun it => it.hasFile && isExcelName it.name)).find?
              (fun f => containsPreviewCI f.name) with
          | some e3 =>
            rw [h3] at h
            injection h with he
            subst he
            exact hmem_excels _ (List.mem_of_find?_eq_some h3)
          | none =>
            rw [h3] at h
            exact hmem_excels _ (List.mem_of_mem_head? h)

/-- C10 — witness: both clauses applied at a one-entry listing. -/
theorem C10_witness :
    (⟨"random.xlsx", false, true⟩ : Entry).isFolder = false ∧
    isExcelName (⟨"random.xlsx", false, true⟩ : Entry).name = true ∧
    (⟨"random.xlsx", false, true⟩ : Entry).hasFile = true := by
  have h1 := C10_selected_is_spreadsheet.1 [⟨"random.xlsx", false, true⟩]
    "Nonexistent" ⟨"random.xlsx", false, true⟩ (by decide)
  have h2 := C10_selected_is_spreadsheet.2 [⟨"random.xlsx", false, true⟩]
    "Nonexistent" ⟨"random.xlsx", false, true⟩ (by decide) (by decide)
  exact ⟨h1.1, h1.2, h2.2.1⟩

/-! ## Preview-link pattern and extraction (claims C5, C6)

The configured pattern is
`/\bhttps?:\/\/[^\s)]+?(?:convert_action=convert_vpreview|convert_e=\d{6,}|convert_v=\d{6,})[^\s)]*/gi`.
Every piece of a match (scheme, lazy segment, marker, greedy tail) draws its
characters from the class `[^\s)]`, so a match always extends from the
scheme's start to the end of the maximal `[^\s)]` run around it, and it
exists precisely when a marker starts somewhere strictly after the first
character following `://` inside that run. -/

/-- The character class `[^\s)]`. -/
def isRunChar (c : Char) : Bool := !isSpaceJS c && c != ')'

/-- Case-insensitive literal prefix test (pattern, then text). -/
def startsWithCI : List Char → List Char → Bool
  | [], _ => true
  | _ :: _, [] => false
  | pc :: ps, c :: cs => (toLowerJS c == toLowerJS pc) && startsWithCI ps cs

/-- `\d{6,}` at the head: at least six digits. -/
def sixDigitsAt (cs : List Char) : Bool :=
  decide (6 ≤ (cs.takeWhile Char.isDigit).length)

/-- One of the three query-parameter signatures starts here. -/
def markerHere (cs : List Char) : Bool :=
  startsWithCI "convert_action=convert_vpreview".data cs
  || (startsWithCI "convert_e=".data cs && sixDigitsAt (cs.drop 10))
  || (startsWithCI "convert_v=".data cs && sixDigitsAt (cs.drop 10))

/-- The lazy `[^\s)]+?` followed by a marker: a marker strictly after at
least one character (the argument is the run remainder after `://`). -/
def markerAfterLazy : List Char → Bool
  | [] => false
  | _ :: rest => markerHere rest || markerAfterLazy rest

/-- `https?:\/\/`, case-insensitively, greedy `s?`: the remainder after the
scheme, or `none`. -/
def afterScheme (cs : List Char) : Option (List Char) :=
  if startsWithCI "https://".data cs then some (cs.drop 8)
  else if startsWithCI "http://".data cs then some (cs.drop 7)
  else none

/-- Does a match of the preview pattern start exactly here? (`prevIsWord`
says whether the previous character is a word character, deciding `\b`.) -/
def matchesAt (prevIsWord : Bool) (cs : List Char) : Bool :=
  !prevIsWord &&
    (match afterScheme cs with
     | none => false
     | some rest => markerAfterLazy (rest.takeWhile isRunChar))

/-- The global (`g` flag) scan: at each position try to match; a successful
match spans to the end of the maximal `[^\s)]` run and scanning resumes
after it. Fuel is one unit per consumed character, so `l.length` is always
enough. -/
def scanAux : Nat → Bool → List Char → List (List Char)
  | 0, _, _ => []
  | _ + 1, _, [] => []
  | fuel + 1, prevIsWord, c :: rest =>
    if matchesAt prevIsWord (c :: rest) then
      (c :: rest.takeWhile isRunChar) ::
        scanAux fuel (isWordChar ((c :: rest.takeWhile isRunChar).getLastD c))
          (rest.dropWhile isRunChar)
    else scanAux fuel (isWordChar c) rest

/-- `text.match(RE)` for the preview pattern: all matches in scan order. -/
def previewMatches (s : String) : List String :=
  (scanAux s.data.length false s.data).map (fun l => (⟨l⟩ : String))

/-- One worksheet: its name and its grid of rows of cell texts. Cells are
already coerced to strings at the spreadsheet-reader boundary (`String(cell
?? '')`); absent cells are the empty string. -/
structure Sheet where
  name : String
  rows : List (List String)
deriving DecidableEq

/-- `XLSX.utils.sheet_to_csv(ws, { FS: '\t' })`: cells joined by tabs, rows
by newlines. -/
def sheetToCsv (ws : Sheet) : String :=
  String.intercalate "\n" (ws.rows.map (String.intercalate "\t"))

/-- JS `Set.prototype.add`: append the element unless already present. -/
def insertUnique (acc : List String) (x : String) : List String :=
  if acc.contains x then acc else acc ++ [x]

/-- `[...new Set(l)]`: first-seen-order deduplication. -/
def dedupe (l : List String) : List String := l.foldl insertUnique []

/-- The trimmed pattern matches of a workbook in traversal order (every
sheet's flattened CSV text, in sheet order), before deduplication. -/
def rawWorkbookMatches (wb : List Sheet) : List String :=
  (wb.map (fun ws => (previewMatches (sheetToCsv ws)).map jsTrim)).flatten

/-- `extractPreviewLinksFromXlsx` of the first `sharepoint.js` revision
(lines 145–158): one `Set` threaded over all sheets of the workbook, each
sheet's CSV text scanned with the preview pattern and every match trimmed
and added; returned in insertion order. -/
def extractPreviewLinksFromXlsx (wb : List Sheet) : List String :=
  dedupe (rawWorkbookMatches wb)

/-- `extractPreviewLinksFromXlsx` of the second revision (part_000 lines
202–232): select the single sheet whose normalized name equals
`normalize "Preview Links"` — else the first sheet —, then scan only that
sheet, cell by cell in row order. -/
def extractPreviewLinksFromXlsx_v0 (wb : List Sheet) : List String :=
  match (match wb.find? (fun ws => normalize ws.name == normalize "Preview Links") with
         | some ws => some ws
         | none => wb.head?) with
  | none => []
  | some ws =>
    dedupe ((ws.rows.map (fun row =>
      (row.map (fun cell => (previewMatches cell).map jsTrim)).flatten)).flatten)

/-- The claim's description of first-seen deduplication: keep each
element's first occurrence, dropping the later ones. -/
def keepFirsts : List String → List String
  | [] => []
  | x :: xs => x :: keepFirsts (xs.filter (fun y => y != x))
termination_by l => l.length
decreasing_by
  simp only [List.length_cons]
  exact Nat.lt_succ_of_le (List.length_filter_le _ xs)

theorem mem_insertUnique {acc : List String} {x y : String} :
    y ∈ insertUnique acc x ↔ y ∈ acc ∨ y = x := by
  unfold insertUnique
  by_cases h : x ∈ acc
  · rw [if_pos (by simpa using h)]
    constructor
    · exact Or.inl
    · rintro (hy | rfl)
      · exact hy
      · exact h
  · rw [if_neg (by simpa using h)]
    simp [List.mem_append]

theorem mem_foldl_insertUnique (l : List String) :
    ∀ (acc : List String) (y : String),
      y ∈ l.foldl insertUnique acc ↔ y ∈ acc ∨ y ∈ l := by
  induction l with
  | nil => simp
  | cons x xs ih =>
    intro acc y
    rw [List.foldl_cons, ih, mem_insertUnique]
    simp only [List.mem_cons]
    tauto

theorem nodup_foldl_insertUnique (l : List String) :
    ∀ acc : List String, acc.Nodup → (l.foldl insertUnique acc).Nodup := by
  induction l with
  | nil => intro acc h; exact h
  | cons x xs ih =>
    intro acc h
    rw [List.foldl_cons]
    apply ih
    unfold insertUnique
    by_cases hx : x ∈ acc
    · rw [if_pos (by simpa using hx)]
      exact h
    · rw [if_neg (by simpa using hx)]
      simp [List.nodup_append, h, hx]

theorem foldl_insertUnique_keepFirsts (l : List String) :
    ∀ acc : List String, l.foldl insertUnique acc =
      acc ++ keepFirsts (l.filter (fun y => !acc.contains y)) := by
  induction l with
  | nil =>
    intro acc
    simp [keepFirsts]
  | cons x xs ih =>
    intro acc
    rw [List.foldl_cons]
    by_cases hx : x ∈ acc
    · have hins : insertUnique acc x = acc := by
        unfold insertUnique
        rw [if_pos (by simpa using hx)]
      rw [hins, ih]
      congr 2
      rw [List.filter_cons_of_neg (by simp [hx])]
    · have hins : insertUnique acc x = acc ++ [x] := by
        unfold insertUnique
        rw [if_neg (by simpa using hx)]
      rw [hins, ih]
      rw [List.filter_cons_of_pos (by simp [hx])]
      rw [keepFirsts]
      have hpred : ∀ z : String,
          (!(acc ++ [x]).contains z) = ((z != x) && !acc.contains z) := by
        intro z
        by_cases hz : z ∈ acc
        · have h1 : acc.contains z = true := by simpa using hz
          have h2 : (acc ++ [x]).contains z = true := by
            simp [List.mem_append, hz]
          rw [h1, h2]
          simp
        · by_cases hzx : z = x
          · subst hzx
            have h2 : (acc ++ [z]).contains z = true := by
              simp [List.mem_append]
            rw [h2]
            simp
          · have h1 : acc.contains z = false := by simpa using hz
            have h2 : (acc ++ [x]).contains z = false := by
              simp [List.mem_append, hz, hzx]
            rw [h1, h2]
            have h3 : (z != x) = true := by simpa using hzx
            rw [h3]
            simp
      have hfilters : xs.filter (fun y => !(acc ++ [x]).contains y) =
          (xs.filter (fun y => !acc.contains y)).filter (fun y => y != x) := by
        rw [List.filter_filter]
        apply List.filter_congr
        intro z _
        rw [hpred z]
      rw [hfilters]
      simp [List.append_assoc]

theorem dedupe_eq_keepFirsts (l : List String) : dedupe l = keepFirsts l := by
  unfold dedupe
  rw [foldl_insertUnique_keepFirsts l []]
  simp [List.filter_true]

/-- C6 — extraction is exactly the first-seen deduplication of the raw match
sequence, and that deduplication yields no duplicates, preserves membership,
and keeps each element at its first-discovery position (`keepFirsts`). The
orchestrator's final `Array.from(new Set(previewLinks))` is the same
`dedupe`. -/
theorem C6_dedup_first_seen :
    (∀ wb : List Sheet,
      extractPreviewLinksFromXlsx wb = dedupe (rawWorkbookMatches wb)) ∧
    (∀ l : List String, (dedupe l).Nodup) ∧
    (∀ (l : List String) (y : String), y ∈ dedupe l ↔ y ∈ l) ∧
    (∀ l : List String, dedupe l = keepFirsts l) := by
  refine ⟨fun wb => rfl, ?_, ?_, dedupe_eq_keepFirsts⟩
  · intro l
    exact nodup_foldl_insertUnique l [] List.nodup_nil
  · intro l y
    unfold dedupe
    rw [mem_foldl_insertUnique]
    simp

/-- C5 (amended) — in the first `sharepoint.js` revision every sheet is
scanned: a pattern match found in any sheet's text lands (trimmed) in the
result, with no sheet-name restriction. The part_000 revision is different:
it restricts scanning to the sheet named `Preview Links` (else the first
sheet) — see the counterexample. -/
theorem C5_all_sheets_scanned (wb : List Sheet) (ws : Sheet) (u : String)
    (hws : ws ∈ wb) (hu : u ∈ previewMatches (sheetToCsv ws)) :
    jsTrim u ∈ extractPreviewLinksFromXlsx wb := by
  unfold extractPreviewLinksFromXlsx dedupe
  rw [mem_foldl_insertUnique]
  right
  unfold rawWorkbookMatches
  rw [List.mem_flatten]
  exact ⟨(previewMatches (sheetToCsv ws)).map jsTrim,
    List.mem_map_of_mem _ hws, List.mem_map_of_mem _ hu⟩

/-- The URL of the spec's end-to-end scenario. -/
def cexUrl : String := "https://files.example.com/x?convert_e=123456"

/-- Two-sheet workbook: the match sits in the second sheet, and no sheet is
named `Preview Links`. -/
def cexWb : List Sheet :=
  [⟨"Summary", [["nothing here"]]⟩, ⟨"Data", [[cexUrl]]⟩]

/-- C5 — counterexample. The claim is false of the part_000 revision it
cites: on `cexWb` the URL matches the pattern inside a cell of the second
sheet, yet that revision scans only the first sheet and returns nothing,
while the all-sheet revision returns the link. -/
theorem C5_counterexample :
    cexUrl ∈ previewMatches (sheetToCsv ⟨"Data", [[cexUrl]]⟩) ∧
    (⟨"Data", [[cexUrl]]⟩ : Sheet) ∈ cexWb ∧
    extractPreviewLinksFromXlsx_v0 cexWb = [] ∧
    extractPreviewLinksFromXlsx cexWb = [cexUrl] := by
  refine ⟨?_, ?_, ?_, ?_⟩ <;> decide

/-- C5 — witness: the amended theorem applied to `cexWb` and its second
sheet. -/
theorem C5_witness : jsTrim cexUrl ∈ extractPreviewLinksFromXlsx cexWb :=
  C5_all_sheets_scanned cexWb ⟨"Data", [[cexUrl]]⟩ cexUrl (by decide) (by decide)

/-! ## Comment composer (claim C7) -/

/-- An image reference as the composer receives it (`{ name, url }`; an
absent name is the empty string, replaced by `'image'` when printed). -/
structure ImageRef where
  name : String
  url : String
deriving DecidableEq

/-- `formatMentions`: `<@id>` tokens joined by spaces, `""` when empty. -/
def formatMentions (userIds : List String) : String :=
  if userIds.isEmpty then ""
  else String.intercalate " " (userIds.map (fun id => "<@" ++ id ++ ">"))

/-- The lines `buildComment` pushes (part_001 lines 249–275, identically the
later part_002 revision, lines 610–635): mention line only when
`includeMentions` holds and mention ids are present, then the title line,
then the preview-link section (with its placeholder), then the image section
(with its placeholder). -/
def buildCommentLines (taskName : String) (previewLinks : List String)
    (images : List ImageRef) (mentionIds : List String)
    (includeMentions : Bool) : List String :=
  (if includeMentions && !mentionIds.isEmpty
    then [formatMentions mentionIds ++ "\n"] else [])
  ++ ["**QA Passed → Preview Links for _" ++ taskName ++ "_**\n"]
  ++ (if !previewLinks.isEmpty then
        ["**Preview Links**"]
        ++ previewLinks.enum.map (fun p =>
            "- [Link " ++ toString (p.1 + 1) ++ "](" ++ p.2 ++ ")")
        ++ [""]
      else ["_No preview links found._\n"])
  ++ (if !images.isEmpty then
        ["**QA Images**"]
        ++ images.map (fun img =>
            "- " ++ (if img.name == "" then "image" else img.name) ++
              " → " ++ img.url)
      else ["_No QA images found._"])

/-- `buildComment`: the pushed lines joined by newlines. -/
def buildComment (taskName : String) (previewLinks : List String)
    (images : List ImageRef) (mentionIds : List String)
    (includeMentions : Bool) : String :=
  String.intercalate "\n"
    (buildCommentLines taskName previewLinks images mentionIds includeMentions)

/-- Step 6 of `run` (part_001 lines 453–469, part_002 lines 811–826):
`isDraft = (commentMode === 'draft')`,
`includeMentions = !isDraft && CONFIG.final.includeMentions`, links
deduplicated with `Array.from(new Set(previewLinks))`, and in draft mode
with the banner enabled the banner text is prepended. -/
def composeComment (commentMode : String) (finalIncludeMentions : Bool)
    (draftAddBanner : Bool) (bannerText : String) (taskName : String)
    (previewLinks : List String) (images : List ImageRef)
    (mentionIds : List String) : String :=
  let isDraft := commentMode == "draft"
  let includeMentions := !isDraft && finalIncludeMentions
  let text := buildComment taskName (dedupe previewLinks) images mentionIds
    includeMentions
  if isDraft && draftAddBanner then bannerText ++ "\n\n" ++ text else text

/-- C7 — in draft mode the composed comment equals the comment composed from
an empty mention list, whatever the configured `includeMentions` flag and
however many mention ids resolved (no mention token can enter it); and the
composer emits the mention line — always first — exactly when
`includeMentions` holds and the mention list is non-empty. -/
theorem C7_draft_suppresses_mentions :
    (∀ (finalIncludeMentions draftAddBanner : Bool) (bannerText taskName : String)
        (previewLinks : List String) (images : List ImageRef)
        (mentionIds : List String),
      composeComment "draft" finalIncludeMentions draftAddBanner bannerText
          taskName previewLinks images mentionIds =
        composeComment "draft" finalIncludeMentions draftAddBanner bannerText
          taskName previewLinks images []) ∧
    (∀ (taskName : String) (previewLinks : List String)
        (images : List ImageRef) (mentionIds : List String)
        (includeMentions : Bool),
      buildCommentLines taskName previewLinks images mentionIds
          includeMentions =
        (if includeMentions && !mentionIds.isEmpty
          then [formatMentions mentionIds ++ "\n"] else [])
        ++ buildCommentLines taskName previewLinks images mentionIds false) := by
  constructor
  · intro finc ab bt tn pl im mids
    have hdraft : (("draft" : String) == "draft") = true := by decide
    unfold composeComment buildComment buildCommentLines
    rw [hdraft]
    simp only [Bool.not_true, Bool.false_and, Bool.false_eq_true, if_false]
  · intro tn pl im mids inc
    unfold buildCommentLines
    simp only [Bool.false_and, Bool.false_eq_true, if_false,
      List.nil_append, List.append_assoc]

/-! ## Dispatch entry point (claim C9) -/

/-- The request fields the handler reads: `token` from the query, `token`
from the JSON body, the `x-auth` header, the `authorization` header, and the
task id selected from query/body (each `''` when absent). -/
structure DispatchReq where
  queryToken : String
  bodyToken : String
  xAuthHeader : String
  authorizationHeader : String
  taskId : String
deriving DecidableEq

/-- The environment variables the handler reads (`none` = unset). -/
structure DispatchEnv where
  sharedDispatchToken : Option String
  ghRepo : Option String
  ghWorkflow : Option String
  ghRef : Option String
  ghToken : Option String
deriving DecidableEq

/-- What the handler does first: answer with a status, or issue the
`workflow_dispatch` call to GitHub (its arguments spelled out). -/
inductive HandlerStep
  | respond (status : Nat)
  | callGitHub (repo workflow ref token task : String)
deriving DecidableEq

/-- JS `a || b` on strings: the first operand unless it is empty. -/
def jsOr (a b : String) : String := if a == "" then b else a

/-- The current `api/dispatch.js` handler up to its outbound GitHub request:
trims the provided tokens (query `token`, `x-auth` header, `Bearer`
authorization), requires the trimmed `SHARED_DISPATCH_TOKEN` to be non-empty
and equal to one of them (else 401), then a task id (else 400), then the
GitHub environment (else 500), and only then calls GitHub. -/
def handler (env : DispatchEnv) (req : DispatchReq) : HandlerStep :=
  let taskId := jsTrim req.taskId
  let tokenQP := jsTrim req.queryToken
  let tokenHdr := jsTrim req.xAuthHeader
  let authHdr := jsTrim req.authorizationHeader
  let bearer := if jsStartsWith (lowerStr authHdr) "bearer "
    then jsTrim ⟨authHdr.data.drop 7⟩ else ""
  let expected := jsTrim (env.sharedDispatchToken.getD "")
  let authOk := (expected != "") &&
    (tokenQP == expected || tokenHdr == expected || bearer == expected)
  if !authOk then HandlerStep.respond 401
  else if taskId == "" then HandlerStep.respond 400
  else
    let ghRepo := jsTrim (env.ghRepo.getD "")
    let ghWorkflow := jsTrim (env.ghWorkflow.getD "")
    let ghRef := jsTrim (jsOr (env.ghRef.getD "") "main")
    let ghToken := jsTrim (env.ghToken.getD "")
    if ghRepo == "" || ghWorkflow == "" || ghToken == "" then
      HandlerStep.respond 500
    else HandlerStep.callGitHub ghRepo ghWorkflow ghRef ghToken taskId

/-- The earlier handler revision (part_000 lines 107–158): all required
environment variables — the shared secret included — are checked first
(500 on any missing/empty one), then the untrimmed provided token
(query `token`, body `token`, `x-auth` header) is compared strictly. -/
def handler_v0 (env : DispatchEnv) (req : DispatchReq) : HandlerStep :=
  if (env.ghRepo.getD "" == "") || (env.ghWorkflow.getD "" == "") ||
      (env.ghToken.getD "" == "") || (env.sharedDispatchToken.getD "" == "") then
    HandlerStep.respond 500
  else
    let provided := jsOr req.queryToken (jsOr req.bodyToken req.xAuthHeader)
    if provided != env.sharedDispatchToken.getD "" then HandlerStep.respond 401
    else if jsTrim req.taskId == "" then HandlerStep.respond 400
    else HandlerStep.callGitHub (env.ghRepo.getD "") (env.ghWorkflow.getD "")
      (env.ghRef.getD "main") (env.ghToken.getD "") (jsTrim req.taskId)

/-- C9 — with the shared secret absent or empty, every request is rejected
before any GitHub call: the current handler answers 401 (the auth check
demands a non-empty trimmed secret), the earlier revision answers 500 (its
environment check), and neither reaches the `workflow_dispatch` request —
in particular an empty provided token never authenticates against an empty
configured secret. -/
theorem C9_empty_secret_rejected (env : DispatchEnv) (req : DispatchReq)
    (h : env.sharedDispatchToken.getD "" = "") :
    handler env req = HandlerStep.respond 401 ∧
    handler_v0 env req = HandlerStep.respond 500 ∧
    (∀ r w f t k, handler env req ≠ HandlerStep.callGitHub r w f t k) ∧
    (∀ r w f t k, handler_v0 env req ≠ HandlerStep.callGitHub r w f t k) := by
  have h1 : handler env req = HandlerStep.respond 401 := by
    have hexp : jsTrim (env.sharedDispatchToken.getD "") = "" := by
      rw [h]
      rfl
    simp only [handler, hexp]
    simp
  have h2 : handler_v0 env req = HandlerStep.respond 500 := by
    simp only [handler_v0, h]
    simp
  refine ⟨h1, h2, ?_, ?_⟩
  · intro r w f t k
    rw [h1]
    exact fun hc => HandlerStep.noConfusion hc
  · intro r w f t k
    rw [h2]
    exact fun hc => HandlerStep.noConfusion hc

/-- Environment with the shared secret unset (GitHub side fully set). -/
def wenvC9 : DispatchEnv :=
  ⟨none, some "owner/repo", some "post-qa.yml", some "main", some "ghp-token"⟩

/-- Request carrying empty tokens and a task id. -/
def wreqC9 : DispatchReq := ⟨"", "", "", "", "868fj80zu"⟩

/-- C9 — witness: with no secret configured and empty provided tokens, the
current handler answers 401 and the earlier one 500. -/
theorem C9_witness :
    handler wenvC9 wreqC9 = HandlerStep.respond 401 ∧
    handler_v0 wenvC9 wreqC9 = HandlerStep.respond 500 :=
  ⟨(C9_empty_secret_rejected wenvC9 wreqC9 rfl).1,
   (C9_empty_secret_rejected wenvC9 wreqC9 rfl).2.1⟩

end Airdrop
